import Mathlib

/-!
Verification of the homomorphic battleship game (`game.py`).

The Paillier primitive is external to the program; following its interface
we model it as an abstract additively homomorphic scheme `HEScheme` with
the two algebraic laws the code relies on: decryption inverts encryption,
and decryption of a homomorphic sum is the sum of decryptions.

Grids (`plain_grid`, `encrypted_grid`, `guess_board` in the source) are
modelled as total functions `Nat → Nat → α`; a Python list assignment
`g[r][c] = v` becomes the pointwise override `setCell`.  All coordinates
the program ever uses are in `[0, GRID_SIZE)`, so the values of the
functions outside that square are irrelevant junk, exactly like cells a
Python list does not have.
-/

namespace Game

/-- Abstract additively homomorphic encryption scheme, the interface the
game requires of the external Paillier library (`paillier.generate_paillier_keypair`,
`public_key.encrypt`, `private_key.decrypt`, `+` on `EncryptedNumber`). -/
structure HEScheme where
  Ct : Type
  encrypt : Int → Ct
  decrypt : Ct → Int
  add : Ct → Ct → Ct
  decrypt_encrypt : ∀ v : Int, decrypt (encrypt v) = v
  decrypt_add : ∀ x y : Ct, decrypt (add x y) = decrypt x + decrypt y

/-- The transparent instance of the scheme (ciphertext = plaintext),
used to evaluate the development on concrete boards. -/
def idHE : HEScheme where
  Ct := Int
  encrypt := fun v => v
  decrypt := fun v => v
  add := fun a b => a + b
  decrypt_encrypt := fun _ => rfl
  decrypt_add := fun _ _ => rfl

/-- Pointwise update of a grid, the model of `g[row][col] = v`. -/
def setCell {α : Type} (g : Nat → Nat → α) (row col : Nat) (v : α) : Nat → Nat → α :=
  fun r c => if r = row ∧ c = col then v else g r c

/-- The three grids a `Player` owns: `plain_grid` (0 = water, 1 = ship part),
`encrypted_grid` (the ciphertext mirror) and `guess_board`
(`.` unknown, `X` hit, `O` miss). -/
structure Board (Ct : Type) where
  plain_grid : Nat → Nat → Int
  encrypted_grid : Nat → Nat → Ct
  guess_board : Nat → Nat → Char

/-- `Player.is_valid_placement`: a run of `size` cells starting at
`(row, col)` in the given orientation stays on the `n × n` board and meets
no cell already equal to 1. -/
def is_valid_placement (n : Nat) (g : Nat → Nat → Int) (row col size : Nat)
    (orientation : Char) : Bool :=
  if orientation = 'H' then
    if n < col + size then false
    else (List.range' col size).all fun c => !(g row c == 1)
  else
    if n < row + size then false
    else (List.range' row size).all fun r => !(g r col == 1)

/-- `Player.set_ship`: write 1 into every cell of the run. -/
def set_ship (g : Nat → Nat → Int) (row col size : Nat) (orientation : Char) :
    Nat → Nat → Int :=
  if orientation = 'H' then
    (List.range' col size).foldl (fun g2 c => setCell g2 row c 1) g
  else
    (List.range' row size).foldl (fun g2 r => setCell g2 r col 1) g

/-- `Player.encrypt_initial_board`: encrypt every cell of the plain grid. -/
def encrypt_initial_board (S : HEScheme) (p : Nat → Nat → Int) : Nat → Nat → S.Ct :=
  fun r c => S.encrypt (p r c)

/-- A freshly constructed board: the plain grid comes from the placement
generator, the encrypted grid is its cell-by-cell encryption, and the guess
board is all `.` (unknown). -/
def mkBoard (S : HEScheme) (p : Nat → Nat → Int) : Board S.Ct :=
  { plain_grid := p
    encrypted_grid := encrypt_initial_board S p
    guess_board := fun _ _ => '.' }

/-- `Player.receive_attack`: mark the guess board with `X`/`O`; on a hit,
homomorphically add a fresh encryption of `-1` to the attacked ciphertext
cell and zero the plaintext shadow cell.  Returns `True` iff hit. -/
def receive_attack (S : HEScheme) (b : Board S.Ct) (row col : Nat) :
    Bool × Board S.Ct :=
  let is_hit := b.plain_grid row col == 1
  let guess2 := setCell b.guess_board row col (if is_hit then 'X' else 'O')
  if is_hit then
    let minus_one := S.encrypt (-1)
    (true,
      { plain_grid := setCell b.plain_grid row col 0
        encrypted_grid :=
          setCell b.encrypted_grid row col (S.add (b.encrypted_grid row col) minus_one)
        guess_board := guess2 })
  else
    (false,
      { plain_grid := b.plain_grid
        encrypted_grid := b.encrypted_grid
        guess_board := guess2 })

/-- `Player.check_health_homomorphically`: start from an encryption of 0,
homomorphically add every ciphertext cell of the `n × n` grid, decrypt only
the final accumulator. -/
def check_health_homomorphically (S : HEScheme) (n : Nat) (b : Board S.Ct) : Int :=
  S.decrypt
    ((List.range n).foldl
      (fun acc r =>
        (List.range n).foldl (fun acc2 c => S.add acc2 (b.encrypted_grid r c)) acc)
      (S.encrypt 0))

/-- State-threaded version of `check_health_homomorphically`, making the
board explicit through every step of the double loop so that freedom from
mutation is a provable statement rather than a convention. -/
def checkHealthS (S : HEScheme) (n : Nat) (b : Board S.Ct) : Int × Board S.Ct :=
  let st :=
    (List.range n).foldl
      (fun st r =>
        (List.range n).foldl
          (fun st2 c => (S.add st2.1 (st2.2.encrypted_grid r c), st2.2)) st)
      (S.encrypt 0, b)
  (S.decrypt st.1, st.2)

/-- Outcome of one resolved attack, in the spec's vocabulary. -/
inductive AttackResult where
  | AlreadyAttacked
  | Hit
  | Miss
deriving DecidableEq

/-- The attack resolution of `main`: if the defender's guess board already
marks the cell, the turn is wasted and nothing is called; otherwise
`receive_attack` runs and its boolean becomes `Hit`/`Miss`. -/
def resolve_attack (S : HEScheme) (b : Board S.Ct) (row col : Nat) :
    AttackResult × Board S.Ct :=
  if b.guess_board row col ≠ '.' then (AttackResult.AlreadyAttacked, b)
  else
    let out := receive_attack S b row col
    (if out.1 then AttackResult.Hit else AttackResult.Miss, out.2)

/-- Fold a whole attack sequence through `receive_attack`. -/
def applyAttacks (S : HEScheme) (b : Board S.Ct) (L : List (Nat × Nat)) :
    Board S.Ct :=
  L.foldl (fun b2 a => (receive_attack S b2 a.1 a.2).2) b

/-- One candidate draw of `Player.place_ships`' retry loop, applied to a
whole stream of draws: the first draw passing `is_valid_placement` is
written with `set_ship`; if every draw is rejected the ship is still
unplaced (the source loop would keep running). -/
def try_place (n : Nat) (g : Nat → Nat → Int) (size : Nat) :
    List (Nat × Nat × Char) → Option (Nat → Nat → Int)
  | [] => none
  | cand :: rest =>
    if is_valid_placement n g cand.1 cand.2.1 size cand.2.2 then
      some (set_ship g cand.1 cand.2.1 size cand.2.2)
    else
      try_place n g size rest

/-- Whether any anchor inside the board, in either orientation, passes
`is_valid_placement` for a ship of this size. -/
def existsValidPlacementB (n : Nat) (g : Nat → Nat → Int) (size : Nat) : Bool :=
  (List.range n).any fun row =>
    (List.range n).any fun col =>
      is_valid_placement n g row col size 'H' || is_valid_placement n g row col size 'V'

/-- The effect of one `receive_attack` on the plaintext shadow alone. -/
def plainStep (p : Nat → Nat → Int) (a : Nat × Nat) : Nat → Nat → Int :=
  if p a.1 a.2 = 1 then setCell p a.1 a.2 0 else p

/-- Model of writing 1 into a whole list of cells, one `setCell` per cell. -/
def setOnes (g : Nat → Nat → Int) (cells : List (Nat × Nat)) : Nat → Nat → Int :=
  cells.foldl (fun g2 a => setCell g2 a.1 a.2 1) g

/-- The run of cells a placement occupies. -/
def shipCells (row col size : Nat) (orientation : Char) : List (Nat × Nat) :=
  if orientation = 'H' then (List.range' col size).map fun c => (row, c)
  else (List.range' row size).map fun r => (r, col)

/-- One ship placement of the generator: anchor, size, orientation. -/
structure Placement where
  row : Nat
  col : Nat
  size : Nat
  orientation : Char

/-- Write a whole list of placements to the grid, in order. -/
def place_all (g : Nat → Nat → Int) : List Placement → (Nat → Nat → Int)
  | [] => g
  | pl :: rest => place_all (set_ship g pl.row pl.col pl.size pl.orientation) rest

/-- The acceptance trace of `place_ships`: every placement in the list has
its anchor inside the board (as `random.randint(0, GRID_SIZE - 1)`
guarantees) and passes `is_valid_placement` against the grid built so far. -/
def validSeq (n : Nat) (g : Nat → Nat → Int) : List Placement → Bool
  | [] => true
  | pl :: rest =>
    decide (pl.row < n) && decide (pl.col < n)
      && is_valid_placement n g pl.row pl.col pl.size pl.orientation
      && validSeq n (set_ship g pl.row pl.col pl.size pl.orientation) rest

/-- The all-water grid every `Player` starts from. -/
def zeroGrid : Nat → Nat → Int := fun _ _ => 0

/-- Concrete 4×4 board of the spec's test scenario: a single size-2 ship
lying horizontally at row 0, columns 0 and 1. -/
def demoGrid : Nat → Nat → Int :=
  fun r c => if r = 0 ∧ (c = 0 ∨ c = 1) then 1 else 0

/-- Every possible candidate draw of the placement loop on a 2×2 board. -/
def allCands2 : List (Nat × Nat × Char) :=
  [(0, 0, 'H'), (0, 1, 'H'), (1, 0, 'H'), (1, 1, 'H'),
   (0, 0, 'V'), (0, 1, 'V'), (1, 0, 'V'), (1, 1, 'V')]

/-- Number of cells equal to 1 on the `n × n` board (the count of remaining
ship parts the spec speaks about). -/
def countOnes (n : Nat) (p : Nat → Nat → Int) : Int :=
  ∑ r in Finset.range n, ∑ c in Finset.range n, (if p r c = 1 then (1 : Int) else 0)

/-- Every in-range cell of the grid is 0 or 1 (what the placement generator
produces). -/
@[reducible] def ZeroOne (n : Nat) (p : Nat → Nat → Int) : Prop :=
  ∀ r, r < n → ∀ c, c < n → (p r c = 0 ∨ p r c = 1)

/-- Number of distinct in-range cells that hold a ship part in `p` and are
attacked somewhere in the sequence `L`. -/
def hitCount (n : Nat) (p : Nat → Nat → Int) (L : List (Nat × Nat)) : Int :=
  ∑ r in Finset.range n, ∑ c in Finset.range n,
    (if p r c = 1 ∧ (r, c) ∈ L then (1 : Int) else 0)

/-- Invariant I1: every ciphertext cell decrypts to the plaintext shadow. -/
def Consistent (S : HEScheme) (b : Board S.Ct) : Prop :=
  ∀ r c, S.decrypt (b.encrypted_grid r c) = b.plain_grid r c

lemma setCell_same {α : Type} (g : Nat → Nat → α) (row col : Nat) (v : α) :
    setCell g row col v row col = v := by
  simp [setCell]

lemma setCell_other {α : Type} (g : Nat → Nat → α) (row col : Nat) (v : α)
    (r c : Nat) (h : ¬(r = row ∧ c = col)) : setCell g row col v r c = g r c := by
  simp only [setCell, if_neg h]

lemma receive_attack_hit (S : HEScheme) (b : Board S.Ct) (row col : Nat)
    (h : b.plain_grid row col = 1) :
    receive_attack S b row col =
      (true,
        { plain_grid := setCell b.plain_grid row col 0
          encrypted_grid :=
            setCell b.encrypted_grid row col
              (S.add (b.encrypted_grid row col) (S.encrypt (-1)))
          guess_board := setCell b.guess_board row col 'X' }) := by
  simp [receive_attack, h]

lemma receive_attack_miss (S : HEScheme) (b : Board S.Ct) (row col : Nat)
    (h : b.plain_grid row col ≠ 1) :
    receive_attack S b row col =
      (false,
        { plain_grid := b.plain_grid
          encrypted_grid := b.encrypted_grid
          guess_board := setCell b.guess_board row col 'O' }) := by
  simp [receive_attack, h]

lemma consistent_mkBoard (S : HEScheme) (p : Nat → Nat → Int) :
    Consistent S (mkBoard S p) := fun _ _ => S.decrypt_encrypt _

lemma consistent_receive_attack (S : HEScheme) (b : Board S.Ct) (row col : Nat)
    (hb : Consistent S b) : Consistent S (receive_attack S b row col).2 := by
  by_cases h : b.plain_grid row col = 1
  · rw [receive_attack_hit S b row col h]
    intro r c
    dsimp only
    by_cases hc : r = row ∧ c = col
    · obtain ⟨hr, hc2⟩ := hc
      subst hr; subst hc2
      rw [setCell_same, setCell_same, S.decrypt_add, S.decrypt_encrypt, hb, h]
      decide
    · rw [setCell_other _ _ _ _ _ _ hc, setCell_other _ _ _ _ _ _ hc]
      exact hb r c
  · rw [receive_attack_miss S b row col h]
    exact hb

lemma receive_attack_plain (S : HEScheme) (b : Board S.Ct) (a : Nat × Nat) :
    ((receive_attack S b a.1 a.2).2).plain_grid = plainStep b.plain_grid a := by
  by_cases h : b.plain_grid a.1 a.2 = 1
  · rw [receive_attack_hit S b a.1 a.2 h]
    simp [plainStep, h]
  · rw [receive_attack_miss S b a.1 a.2 h]
    simp [plainStep, h]

lemma applyAttacks_plain (S : HEScheme) (L : List (Nat × Nat)) :
    ∀ b : Board S.Ct, (applyAttacks S b L).plain_grid = L.foldl plainStep b.plain_grid := by
  induction L with
  | nil => intro b; rfl
  | cons a L ih =>
    intro b
    show (applyAttacks S ((receive_attack S b a.1 a.2).2) L).plain_grid
        = L.foldl plainStep (plainStep b.plain_grid a)
    rw [ih, receive_attack_plain]

lemma consistent_applyAttacks (S : HEScheme) (L : List (Nat × Nat)) :
    ∀ b : Board S.Ct, Consistent S b → Consistent S (applyAttacks S b L) := by
  induction L with
  | nil => intro b hb; exact hb
  | cons a L ih =>
    intro b hb
    exact ih _ (consistent_receive_attack S b a.1 a.2 hb)

/-- Pointwise description of the plaintext shadow after a whole attack
sequence: an attacked ship cell is zeroed, everything else keeps its value. -/
lemma foldl_plainStep_char (L : List (Nat × Nat)) :
    ∀ (p : Nat → Nat → Int) (r c : Nat),
      L.foldl plainStep p r c = if p r c = 1 ∧ (r, c) ∈ L then 0 else p r c := by
  induction L with
  | nil => intro p r c; simp
  | cons a L ih =>
    intro p r c
    rw [List.foldl_cons, ih]
    by_cases hm : (r, c) = a
    · have hr : r = a.1 := by rw [← hm]
      have hc : c = a.2 := by rw [← hm]
      by_cases h1 : p a.1 a.2 = 1
      · have hv : plainStep p a r c = 0 := by
          rw [hr, hc]
          simp [plainStep, h1, setCell_same]
        rw [hv]
        simp [hr, hc, h1]
      · have hv : plainStep p a r c = p r c := by simp [plainStep, h1]
        rw [hv]
        have h1' : ¬ p r c = 1 := by rw [hr, hc]; exact h1
        simp [h1']
    · have hne : ¬(r = a.1 ∧ c = a.2) := by
        intro hcon
        exact hm (Prod.ext hcon.1 hcon.2)
      have hv : plainStep p a r c = p r c := by
        unfold plainStep
        by_cases h1 : p a.1 a.2 = 1
        · rw [if_pos h1]
          exact setCell_other _ _ _ _ _ _ hne
        · rw [if_neg h1]
      rw [hv]
      simp [List.mem_cons, hm]

lemma list_range_map_sum (f : Nat → Int) (n : Nat) :
    ((List.range n).map f).sum = ∑ i in Finset.range n, f i := by
  induction n with
  | zero => simp
  | succ n ih =>
    rw [List.range_succ, List.map_append, List.sum_append, Finset.sum_range_succ, ih]
    simp

lemma decrypt_foldl_add (S : HEScheme) (e : Nat → S.Ct) (l : List Nat) :
    ∀ a : S.Ct,
      S.decrypt (l.foldl (fun acc c => S.add acc (e c)) a)
        = S.decrypt a + ((l.map fun c => S.decrypt (e c)).sum) := by
  induction l with
  | nil => intro a; simp
  | cons x l ih =>
    intro a
    rw [List.foldl_cons, ih, S.decrypt_add, List.map_cons, List.sum_cons, add_assoc]

lemma decrypt_health_fold (S : HEScheme) (e : Nat → Nat → S.Ct) (lc : List Nat)
    (lr : List Nat) :
    ∀ a : S.Ct,
      S.decrypt
          (lr.foldl (fun acc r => lc.foldl (fun acc2 c => S.add acc2 (e r c)) acc) a)
        = S.decrypt a
            + ((lr.map fun r => ((lc.map fun c => S.decrypt (e r c)).sum)).sum) := by
  induction lr with
  | nil => intro a; simp
  | cons r lr ih =>
    intro a
    rw [List.foldl_cons, ih, decrypt_foldl_add, List.map_cons, List.sum_cons, add_assoc]

/-- The Health Oracle decrypts to the sum of the decryptions of the cells. -/
lemma check_health_eq_sum (S : HEScheme) (n : Nat) (b : Board S.Ct) :
    check_health_homomorphically S n b
      = ∑ r in Finset.range n, ∑ c in Finset.range n, S.decrypt (b.encrypted_grid r c) := by
  unfold check_health_homomorphically
  rw [decrypt_health_fold, S.decrypt_encrypt, zero_add, list_range_map_sum]
  exact Finset.sum_congr rfl fun r _ => list_range_map_sum _ n

lemma sum_eq_countOnes (n : Nat) (p : Nat → Nat → Int) (h01 : ZeroOne n p) :
    (∑ r in Finset.range n, ∑ c in Finset.range n, p r c) = countOnes n p := by
  unfold countOnes
  refine Finset.sum_congr rfl fun r hr => Finset.sum_congr rfl fun c hc => ?h
  rcases h01 r (Finset.mem_range.mp hr) c (Finset.mem_range.mp hc) with h0 | h1
  · rw [h0]; norm_num
  · rw [h1]; norm_num

lemma zeroOne_foldl_plainStep (n : Nat) (p : Nat → Nat → Int)
    (L : List (Nat × Nat)) (h01 : ZeroOne n p) : ZeroOne n (L.foldl plainStep p) := by
  intro r hr c hc
  rw [foldl_plainStep_char]
  by_cases h : p r c = 1 ∧ (r, c) ∈ L
  · rw [if_pos h]; exact Or.inl rfl
  · rw [if_neg h]; exact h01 r hr c hc

/-- Core aggregate-correctness lemma: the Health Oracle on an attacked board
returns the number of remaining 1-cells of the plaintext shadow. -/
lemma health_eq_countOnes_final (S : HEScheme) (n : Nat) (p : Nat → Nat → Int)
    (L : List (Nat × Nat)) (h01 : ZeroOne n p) :
    check_health_homomorphically S n (applyAttacks S (mkBoard S p) L)
      = countOnes n ((applyAttacks S (mkBoard S p) L).plain_grid) := by
  rw [check_health_eq_sum]
  have hcons := consistent_applyAttacks S L (mkBoard S p) (consistent_mkBoard S p)
  have hsum :
      (∑ r in Finset.range n, ∑ c in Finset.range n,
          S.decrypt ((applyAttacks S (mkBoard S p) L).encrypted_grid r c))
        = ∑ r in Finset.range n, ∑ c in Finset.range n,
            (applyAttacks S (mkBoard S p) L).plain_grid r c :=
    Finset.sum_congr rfl fun r _ => Finset.sum_congr rfl fun c _ => hcons r c
  rw [hsum]
  apply sum_eq_countOnes
  rw [applyAttacks_plain]
  exact zeroOne_foldl_plainStep n p L h01

/-- Counting after the attacks: each distinct attacked ship cell lowers the
count of 1-cells by exactly one. -/
lemma countOnes_foldl_plainStep (n : Nat) (p : Nat → Nat → Int)
    (L : List (Nat × Nat)) :
    countOnes n (L.foldl plainStep p) = countOnes n p - hitCount n p L := by
  unfold countOnes hitCount
  rw [← Finset.sum_sub_distrib]
  refine Finset.sum_congr rfl fun r _ => ?hr
  rw [← Finset.sum_sub_distrib]
  refine Finset.sum_congr rfl fun c _ => ?hc
  rw [foldl_plainStep_char]
  by_cases h : p r c = 1 ∧ (r, c) ∈ L
  · simp only [if_pos h, if_pos h.1]
    norm_num
  · rw [if_neg h, if_neg h, sub_zero]

lemma checkHealth_inner (S : HEScheme) (b : Board S.Ct) (r : Nat) (lc : List Nat) :
    ∀ a : S.Ct,
      lc.foldl (fun st2 c => (S.add st2.1 (st2.2.encrypted_grid r c), st2.2)) (a, b)
        = (lc.foldl (fun y c => S.add y (b.encrypted_grid r c)) a, b) := by
  induction lc with
  | nil => intro a; rfl
  | cons x lc ih =>
    intro a
    rw [List.foldl_cons, List.foldl_cons]
    exact ih (S.add a (b.encrypted_grid r x))

lemma checkHealth_outer (S : HEScheme) (b : Board S.Ct) (lc lr : List Nat) :
    ∀ a : S.Ct,
      lr.foldl
          (fun st r =>
            lc.foldl (fun st2 c => (S.add st2.1 (st2.2.encrypted_grid r c), st2.2)) st)
          (a, b)
        = (lr.foldl (fun x r => lc.foldl (fun y c => S.add y (b.encrypted_grid r c)) x) a,
            b) := by
  induction lr with
  | nil => intro a; rfl
  | cons r lr ih =>
    intro a
    rw [List.foldl_cons, List.foldl_cons, checkHealth_inner S b r lc a]
    exact ih _

/-- The state-threaded Health Oracle returns the same integer as the plain
one and gives the board back untouched. -/
lemma checkHealthS_spec (S : HEScheme) (n : Nat) (b : Board S.Ct) :
    checkHealthS S n b = (check_health_homomorphically S n b, b) := by
  simp only [checkHealthS, check_health_homomorphically]
  rw [checkHealth_outer]

lemma sum_delta (n : Nat) (row col : Nat) (hr : row < n) (hc : col < n) :
    (∑ r in Finset.range n, ∑ c in Finset.range n,
        (if r = row ∧ c = col then (1 : Int) else 0)) = 1 := by
  have hinner : ∀ r : Nat,
      (∑ c in Finset.range n, (if r = row ∧ c = col then (1 : Int) else 0))
        = if r = row then 1 else 0 := by
    intro r
    by_cases h : r = row
    · rw [if_pos h]
      have hcongr : ∀ c ∈ Finset.range n,
          (if r = row ∧ c = col then (1 : Int) else 0) = if c = col then 1 else 0 := by
        intro c _
        by_cases h2 : c = col
        · rw [if_pos ⟨h, h2⟩, if_pos h2]
        · rw [if_neg (fun hcon => h2 hcon.2), if_neg h2]
      rw [Finset.sum_congr rfl hcongr, Finset.sum_ite_eq' (Finset.range n) col fun _ => (1 : Int),
        if_pos (Finset.mem_range.mpr hc)]
    · rw [if_neg h]
      exact Finset.sum_eq_zero fun c _ => if_neg fun hcon => h hcon.1
  rw [Finset.sum_congr rfl fun r _ => hinner r,
    Finset.sum_ite_eq' (Finset.range n) row fun _ => (1 : Int),
    if_pos (Finset.mem_range.mpr hr)]

lemma countOnes_setCell_one (n : Nat) (g : Nat → Nat → Int) (row col : Nat)
    (hr : row < n) (hc : col < n) (hne : g row col ≠ 1) :
    countOnes n (setCell g row col 1) = countOnes n g + 1 := by
  unfold countOnes
  have hpoint : ∀ r c : Nat,
      (if setCell g row col 1 r c = 1 then (1 : Int) else 0)
        = (if g r c = 1 then (1 : Int) else 0) + (if r = row ∧ c = col then (1 : Int) else 0) := by
    intro r c
    by_cases h : r = row ∧ c = col
    · obtain ⟨h1, h2⟩ := h
      subst h1; subst h2
      rw [setCell_same, if_pos rfl, if_neg hne, if_pos ⟨rfl, rfl⟩]
      decide
    · rw [setCell_other _ _ _ _ _ _ h, if_neg h, add_zero]
  have h1 :
      (∑ r in Finset.range n, ∑ c in Finset.range n,
          (if setCell g row col 1 r c = 1 then (1 : Int) else 0))
        = ∑ r in Finset.range n, ∑ c in Finset.range n,
            ((if g r c = 1 then (1 : Int) else 0) + (if r = row ∧ c = col then (1 : Int) else 0)) :=
    Finset.sum_congr rfl fun r _ => Finset.sum_congr rfl fun c _ => hpoint r c
  rw [h1, Finset.sum_congr rfl fun r _ => Finset.sum_add_distrib,
    Finset.sum_add_distrib, sum_delta n row col hr hc]

lemma setOnes_not_mem (cells : List (Nat × Nat)) :
    ∀ (g : Nat → Nat → Int) (r c : Nat), (r, c) ∉ cells → setOnes g cells r c = g r c := by
  induction cells with
  | nil => intro g r c _; rfl
  | cons a cells ih =>
    intro g r c h
    have h2 : (r, c) ∉ cells := fun hcon => h (List.mem_cons_of_mem _ hcon)
    show setOnes (setCell g a.1 a.2 1) cells r c = g r c
    rw [ih _ r c h2]
    apply setCell_other
    intro hcon
    have heq : (r, c) = a := Prod.ext hcon.1 hcon.2
    exact h (by rw [heq]; exact List.mem_cons_self a cells)

lemma countOnes_setOnes (n : Nat) (cells : List (Nat × Nat)) :
    ∀ g : Nat → Nat → Int, cells.Nodup → (∀ a ∈ cells, a.1 < n ∧ a.2 < n) →
      (∀ a ∈ cells, g a.1 a.2 ≠ 1) →
      countOnes n (setOnes g cells) = countOnes n g + cells.length := by
  induction cells with
  | nil => intro g _ _ _; simp [setOnes]
  | cons a cells ih =>
    intro g hnd hb hfree
    have hnotmem : a ∉ cells := (List.nodup_cons.mp hnd).1
    show countOnes n (setOnes (setCell g a.1 a.2 1) cells) = _
    rw [ih (setCell g a.1 a.2 1) (List.nodup_cons.mp hnd).2
        (fun x hx => hb x (List.mem_cons_of_mem _ hx))
        (fun x hx => by
          rw [setCell_other]
          · exact hfree x (List.mem_cons_of_mem _ hx)
          · intro hcon
            exact hnotmem (by rw [← Prod.ext hcon.1 hcon.2]; exact hx))]
    rw [countOnes_setCell_one n g a.1 a.2 (hb a (List.mem_cons_self a cells)).1
      (hb a (List.mem_cons_self a cells)).2 (hfree a (List.mem_cons_self a cells))]
    rw [List.length_cons]
    push_cast
    ring

lemma set_ship_eq_setOnes (g : Nat → Nat → Int) (row col size : Nat)
    (orientation : Char) :
    set_ship g row col size orientation = setOnes g (shipCells row col size orientation) := by
  unfold set_ship shipCells setOnes
  by_cases h : orientation = 'H' <;> simp [h, List.foldl_map]

lemma shipCells_nodup (row col size : Nat) (orientation : Char) :
    (shipCells row col size orientation).Nodup := by
  unfold shipCells
  by_cases h : orientation = 'H'
  · rw [if_pos h]
    exact List.Nodup.map (fun a b hab => congrArg Prod.snd hab) (List.nodup_range' _ _)
  · rw [if_neg h]
    exact List.Nodup.map (fun a b hab => congrArg Prod.fst hab) (List.nodup_range' _ _)

lemma shipCells_length (row col size : Nat) (orientation : Char) :
    (shipCells row col size orientation).length = size := by
  unfold shipCells
  by_cases h : orientation = 'H' <;> simp [h]

lemma is_valid_placement_not_H (n : Nat) (g : Nat → Nat → Int) (row col size : Nat)
    (o : Char) (h : o ≠ 'H') :
    is_valid_placement n g row col size o = is_valid_placement n g row col size 'V' := by
  simp [is_valid_placement, h]

/-- Everything the validity check guarantees about the run it accepts:
each cell is on the board and not already occupied. -/
lemma valid_shipCells (n : Nat) (g : Nat → Nat → Int) (row col size : Nat)
    (orientation : Char) (hr : row < n) (hc : col < n)
    (hv : is_valid_placement n g row col size orientation = true) :
    ∀ a ∈ shipCells row col size orientation, a.1 < n ∧ a.2 < n ∧ g a.1 a.2 ≠ 1 := by
  intro a ha
  unfold is_valid_placement at hv
  unfold shipCells at ha
  by_cases h : orientation = 'H'
  · rw [if_pos h] at hv
    rw [if_pos h] at ha
    by_cases hb : n < col + size
    · rw [if_pos hb] at hv
      exact absurd hv (by decide)
    · rw [if_neg hb] at hv
      obtain ⟨c, hcmem, rfl⟩ := List.mem_map.mp ha
      have hrange := List.mem_range'_1.mp hcmem
      refine ⟨hr, lt_of_lt_of_le hrange.2 (not_lt.mp hb), ?hfree⟩
      have hall := List.all_eq_true.mp hv c hcmem
      simpa using hall
  · rw [if_neg h] at hv
    rw [if_neg h] at ha
    by_cases hb : n < row + size
    · rw [if_pos hb] at hv
      exact absurd hv (by decide)
    · rw [if_neg hb] at hv
      obtain ⟨r, hrmem, rfl⟩ := List.mem_map.mp ha
      have hrange := List.mem_range'_1.mp hrmem
      refine ⟨lt_of_lt_of_le hrange.2 (not_lt.mp hb), hc, ?hfree2⟩
      have hall := List.all_eq_true.mp hv r hrmem
      simpa using hall

lemma countOnes_set_ship (n : Nat) (g : Nat → Nat → Int) (row col size : Nat)
    (orientation : Char) (hr : row < n) (hc : col < n)
    (hv : is_valid_placement n g row col size orientation = true) :
    countOnes n (set_ship g row col size orientation) = countOnes n g + size := by
  rw [set_ship_eq_setOnes]
  have hcells := valid_shipCells n g row col size orientation hr hc hv
  rw [countOnes_setOnes n (shipCells row col size orientation) g
    (shipCells_nodup row col size orientation)
    (fun a ha => ⟨(hcells a ha).1, (hcells a ha).2.1⟩)
    (fun a ha => (hcells a ha).2.2)]
  rw [shipCells_length]

lemma countOnes_place_all (n : Nat) (ps : List Placement) :
    ∀ g : Nat → Nat → Int, validSeq n g ps = true →
      countOnes n (place_all g ps) = countOnes n g + ((ps.map fun pl => (pl.size : Int)).sum) := by
  induction ps with
  | nil => intro g _; simp [place_all]
  | cons pl ps ih =>
    intro g hv
    simp only [validSeq, Bool.and_eq_true, decide_eq_true_eq] at hv
    obtain ⟨⟨⟨hr, hc⟩, hvp⟩, hrest⟩ := hv
    show countOnes n (place_all (set_ship g pl.row pl.col pl.size pl.orientation) ps) = _
    rw [ih _ hrest, countOnes_set_ship n g pl.row pl.col pl.size pl.orientation hr hc hvp,
      List.map_cons, List.sum_cons]
    ring

lemma existsValid_false_elim (n : Nat) (g : Nat → Nat → Int) (size : Nat)
    (row col : Nat) (hr : row < n) (hcol : col < n) (o : Char)
    (h : existsValidPlacementB n g size = false) :
    is_valid_placement n g row col size o = false := by
  cases hval : is_valid_placement n g row col size o with
  | false => rfl
  | true =>
    exfalso
    have htrue : existsValidPlacementB n g size = true := by
      unfold existsValidPlacementB
      rw [List.any_eq_true]
      refine ⟨row, List.mem_range.mpr hr, ?inner⟩
      rw [List.any_eq_true]
      refine ⟨col, List.mem_range.mpr hcol, ?here⟩
      rw [Bool.or_eq_true]
      by_cases ho : o = 'H'
      · left; rw [← ho]; exact hval
      · right; rw [← is_valid_placement_not_H n g row col size o ho]; exact hval
    rw [h] at htrue
    exact Bool.false_ne_true htrue

/-- If no anchor/orientation combination is valid, the retry loop of
`place_ships` rejects every candidate draw: however long the stream of
random draws, the ship is never placed and no error is ever signalled. -/
lemma try_place_none (n : Nat) (g : Nat → Nat → Int) (size : Nat)
    (h : existsValidPlacementB n g size = false) :
    ∀ cands : List (Nat × Nat × Char), (∀ a ∈ cands, a.1 < n ∧ a.2.1 < n) →
      try_place n g size cands = none := by
  intro cands
  induction cands with
  | nil => intro _; rfl
  | cons a cands ih =>
    intro hb
    show try_place n g size (a :: cands) = none
    simp only [try_place]
    rw [existsValid_false_elim n g size a.1 a.2.1 (hb a (List.mem_cons_self a cands)).1
      (hb a (List.mem_cons_self a cands)).2 a.2.2 h]
    simp only [Bool.false_eq_true, if_false]
    exact ih fun x hx => hb x (List.mem_cons_of_mem _ hx)

/-- Claim C1: for every board, after the initial full-grid encryption and
after any sequence of attacks processed by `receive_attack`, every
ciphertext cell decrypts to the corresponding plaintext shadow cell
(invariant I1). -/
theorem claim_I1_consistency (S : HEScheme) (p : Nat → Nat → Int)
    (L : List (Nat × Nat)) (r c : Nat) :
    S.decrypt ((applyAttacks S (mkBoard S p) L).encrypted_grid r c)
      = (applyAttacks S (mkBoard S p) L).plain_grid r c :=
  consistent_applyAttacks S L (mkBoard S p) (consistent_mkBoard S p) r c

/-- Claim C2: for every 0/1 board and every attack sequence, the Health
Oracle — homomorphic sum of all ciphertext cells starting from an
encryption of 0, then one decryption — returns exactly the number of cells
equal to 1 in the plaintext shadow grid. -/
theorem claim_health_oracle_count (S : HEScheme) (n : Nat) (p : Nat → Nat → Int)
    (L : List (Nat × Nat)) (h01 : ZeroOne n p) :
    check_health_homomorphically S n (applyAttacks S (mkBoard S p) L)
      = countOnes n ((applyAttacks S (mkBoard S p) L).plain_grid) :=
  health_eq_countOnes_final S n p L h01

theorem claim_health_oracle_count_witness :
    check_health_homomorphically idHE 4 (applyAttacks idHE (mkBoard idHE demoGrid) [(0, 0), (3, 3)])
      = countOnes 4 ((applyAttacks idHE (mkBoard idHE demoGrid) [(0, 0), (3, 3)]).plain_grid) :=
  claim_health_oracle_count idHE 4 demoGrid [(0, 0), (3, 3)] (by decide)

/-- Claim C3: hitting a cell whose plaintext is 1 returns a hit, zeroes the
plaintext shadow cell, replaces the ciphertext cell by the homomorphic sum
of the old ciphertext and a fresh encryption of -1, and the new cell
decrypts to 0 (no decryption of the cell is ever performed — `receive_attack`
uses only `add` and `encrypt`). -/
theorem claim_apply_hit (S : HEScheme) (b : Board S.Ct) (row col : Nat)
    (h1 : b.plain_grid row col = 1)
    (h2 : S.decrypt (b.encrypted_grid row col) = 1) :
    (receive_attack S b row col).1 = true
      ∧ (receive_attack S b row col).2.plain_grid row col = 0
      ∧ (receive_attack S b row col).2.encrypted_grid row col
          = S.add (b.encrypted_grid row col) (S.encrypt (-1))
      ∧ S.decrypt ((receive_attack S b row col).2.encrypted_grid row col) = 0 := by
  rw [receive_attack_hit S b row col h1]
  refine ⟨rfl, ?hp, ?he, ?hd⟩
  · dsimp only
    exact setCell_same _ _ _ _
  · dsimp only
    exact setCell_same _ _ _ _
  · dsimp only
    rw [setCell_same, S.decrypt_add, S.decrypt_encrypt, h2]
    decide

theorem claim_apply_hit_witness :
    (receive_attack idHE (mkBoard idHE demoGrid) 0 0).1 = true
      ∧ (receive_attack idHE (mkBoard idHE demoGrid) 0 0).2.plain_grid 0 0 = 0
      ∧ (receive_attack idHE (mkBoard idHE demoGrid) 0 0).2.encrypted_grid 0 0
          = idHE.add ((mkBoard idHE demoGrid).encrypted_grid 0 0) (idHE.encrypt (-1))
      ∧ idHE.decrypt ((receive_attack idHE (mkBoard idHE demoGrid) 0 0).2.encrypted_grid 0 0) = 0 :=
  claim_apply_hit idHE (mkBoard idHE demoGrid) 0 0 (by decide) (by decide)

/-- Claim C4: on a not-yet-attacked coordinate `resolve_attack` answers
`Hit` or `Miss`; a second call on the same coordinate answers
`AlreadyAttacked` and returns the board unchanged; and in general any call
on an already-marked coordinate answers `AlreadyAttacked` with no
mutation at all. -/
theorem claim_resolve_idempotent (S : HEScheme) (b : Board S.Ct) (row col : Nat)
    (h : b.guess_board row col = '.') :
    ((resolve_attack S b row col).1 = AttackResult.Hit
        ∨ (resolve_attack S b row col).1 = AttackResult.Miss)
      ∧ resolve_attack S ((resolve_attack S b row col).2) row col
          = (AttackResult.AlreadyAttacked, (resolve_attack S b row col).2)
      ∧ (∀ b2 : Board S.Ct, ∀ r c : Nat, b2.guess_board r c ≠ '.' →
          resolve_attack S b2 r c = (AttackResult.AlreadyAttacked, b2)) := by
  have hguard : ∀ b2 : Board S.Ct, ∀ r c : Nat, b2.guess_board r c ≠ '.' →
      resolve_attack S b2 r c = (AttackResult.AlreadyAttacked, b2) := by
    intro b2 r c h2
    unfold resolve_attack
    rw [if_pos h2]
  have hfirst : resolve_attack S b row col
      = (if (receive_attack S b row col).1 then AttackResult.Hit else AttackResult.Miss,
          (receive_attack S b row col).2) := by
    unfold resolve_attack
    rw [if_neg fun hne => hne h]
  refine ⟨?hfm, ?hsecond, hguard⟩
  · rw [hfirst]
    dsimp only
    by_cases h2 : (receive_attack S b row col).1 = true
    · rw [h2]
      exact Or.inl rfl
    · rw [Bool.not_eq_true] at h2
      rw [h2]
      exact Or.inr rfl
  · apply hguard
    rw [hfirst]
    dsimp only
    by_cases hp : b.plain_grid row col = 1
    · rw [receive_attack_hit S b row col hp]
      dsimp only
      rw [setCell_same]
      decide
    · rw [receive_attack_miss S b row col hp]
      dsimp only
      rw [setCell_same]
      decide

theorem claim_resolve_idempotent_witness :
    resolve_attack idHE ((resolve_attack idHE (mkBoard idHE demoGrid) 0 0).2) 0 0
      = (AttackResult.AlreadyAttacked, (resolve_attack idHE (mkBoard idHE demoGrid) 0 0).2) :=
  (claim_resolve_idempotent idHE (mkBoard idHE demoGrid) 0 0 rfl).2.1

/-- Claim C5: on a 0/1 board carrying `k` ship parts, an attack sequence
that hits all `k` occupied cells (any number of misses interleaved) drives
the Health Oracle to 0, and a sequence hitting fewer than `k` distinct
occupied cells never does. -/
theorem claim_termination (S : HEScheme) (n : Nat) (p : Nat → Nat → Int) (k : Int)
    (L : List (Nat × Nat)) (h01 : ZeroOne n p) (hk : countOnes n p = k) :
    (hitCount n p L = k →
        check_health_homomorphically S n (applyAttacks S (mkBoard S p) L) = 0)
      ∧ (hitCount n p L < k →
        check_health_homomorphically S n (applyAttacks S (mkBoard S p) L) ≠ 0) := by
  have hplain : (mkBoard S p).plain_grid = p := rfl
  have hmain : check_health_homomorphically S n (applyAttacks S (mkBoard S p) L)
      = k - hitCount n p L := by
    rw [health_eq_countOnes_final S n p L h01, applyAttacks_plain, hplain,
      countOnes_foldl_plainStep n p L, hk]
  constructor
  · intro hL
    rw [hmain, hL, sub_self]
  · intro hL
    rw [hmain]
    intro hcon
    omega

theorem claim_termination_witness :
    check_health_homomorphically idHE 4
        (applyAttacks idHE (mkBoard idHE demoGrid) [(0, 0), (2, 2), (0, 1)]) = 0 :=
  (claim_termination idHE 4 demoGrid 2 [(0, 0), (2, 2), (0, 1)] (by decide) (by decide)).1
    (by decide)

/-- Claim C6: every placement the generator accepts (anchor drawn inside
the board, `is_valid_placement` true) has its whole run in bounds and on
cells not already occupied; and writing any accepted sequence of
placements onto the all-water grid leaves exactly the sum of the ship
sizes as 1-cells. -/
theorem claim_placement_validity (n : Nat) :
    (∀ (g : Nat → Nat → Int) (row col size : Nat) (orientation : Char),
        row < n → col < n →
        is_valid_placement n g row col size orientation = true →
        ∀ a ∈ shipCells row col size orientation, a.1 < n ∧ a.2 < n ∧ g a.1 a.2 ≠ 1)
      ∧ (∀ ps : List Placement, validSeq n zeroGrid ps = true →
          countOnes n (place_all zeroGrid ps) = ((ps.map fun pl => (pl.size : Int)).sum)) := by
  constructor
  · exact fun g row col size orientation hr hc hv =>
      valid_shipCells n g row col size orientation hr hc hv
  · intro ps hv
    rw [countOnes_place_all n ps zeroGrid hv]
    have hzero : countOnes n zeroGrid = 0 := by
      unfold countOnes zeroGrid
      simp
    rw [hzero, zero_add]

theorem claim_placement_validity_witness :
    countOnes 4 (place_all zeroGrid [⟨0, 0, 2, 'H'⟩, ⟨1, 1, 3, 'V'⟩])
      = ((([⟨0, 0, 2, 'H'⟩, ⟨1, 1, 3, 'V'⟩] : List Placement).map
          fun pl => (pl.size : Int)).sum) :=
  (claim_placement_validity 4).2 [⟨0, 0, 2, 'H'⟩, ⟨1, 1, 3, 'V'⟩] (by decide)

/-- Claim C7 counterexample: with a 2×2 board and a ship of size 3 (a
configuration that cannot fit), no anchor/orientation passes the validity
check, and the placement search rejects even the exhaustive list of all
eight possible candidate draws, producing no placement and no error value:
`place_ships` has no configuration check and simply retries forever, so
nothing "fails fatally at setup". -/
theorem claim_config_check_counterexample :
    existsValidPlacementB 2 zeroGrid 3 = false
      ∧ try_place 2 zeroGrid 3 allCands2 = none :=
  ⟨by decide, rfl⟩

/-- Claim C7 amended: board initialization performs no configuration
check; when the ship sizes cannot possibly fit, every candidate draw of
the random placement search is rejected, so the retry loop never places
the ship and never signals an error — the infeasibility manifests as a
non-terminating runtime search instead of a fatal setup failure. -/
theorem claim_no_config_failure (n : Nat) (g : Nat → Nat → Int) (size : Nat)
    (cands : List (Nat × Nat × Char))
    (h : existsValidPlacementB n g size = false)
    (hc : ∀ a ∈ cands, a.1 < n ∧ a.2.1 < n) :
    try_place n g size cands = none :=
  try_place_none n g size h cands hc

theorem claim_no_config_failure_witness :
    try_place 2 zeroGrid 3 [(0, 0, 'H'), (1, 1, 'V')] = none :=
  claim_no_config_failure 2 zeroGrid 3 [(0, 0, 'H'), (1, 1, 'V')] (by decide) (by decide)

/-- Claim C8: an attack on a fresh coordinate always rewrites the guess
cell (to `X` on hit, `O` on miss) and touches no other guess cell; on a
miss the plaintext and ciphertext grids are completely unchanged; on a hit
they change exactly at the attacked cell, together. -/
theorem claim_attack_frame (S : HEScheme) (b : Board S.Ct) (row col : Nat)
    (h : b.guess_board row col = '.') :
    ((receive_attack S b row col).2.guess_board row col
        = (if (receive_attack S b row col).1 then 'X' else 'O')
      ∧ (receive_attack S b row col).2.guess_board row col ≠ b.guess_board row col)
      ∧ (∀ r c : Nat, ¬(r = row ∧ c = col) →
          (receive_attack S b row col).2.guess_board r c = b.guess_board r c)
      ∧ ((receive_attack S b row col).1 = false →
          (receive_attack S b row col).2.plain_grid = b.plain_grid
            ∧ (receive_attack S b row col).2.encrypted_grid = b.encrypted_grid)
      ∧ ((receive_attack S b row col).1 = true →
          (receive_attack S b row col).2.plain_grid row col = 0
            ∧ (receive_attack S b row col).2.encrypted_grid row col
                = S.add (b.encrypted_grid row col) (S.encrypt (-1))
            ∧ ∀ r c : Nat, ¬(r = row ∧ c = col) →
                (receive_attack S b row col).2.plain_grid r c = b.plain_grid r c
                  ∧ (receive_attack S b row col).2.encrypted_grid r c
                      = b.encrypted_grid r c) := by
  by_cases hp : b.plain_grid row col = 1
  · rw [receive_attack_hit S b row col hp]
    dsimp only
    refine ⟨⟨?g1, ?g2⟩, ?gother, ?miss, ?hit⟩
    · rw [setCell_same]
      decide
    · rw [setCell_same, h]
      decide
    · intro r c hrc
      exact setCell_other _ _ _ _ _ _ hrc
    · intro hfalse
      exact absurd hfalse (by decide)
    · intro _
      exact ⟨setCell_same _ _ _ _, setCell_same _ _ _ _,
        fun r c hrc => ⟨setCell_other _ _ _ _ _ _ hrc, setCell_other _ _ _ _ _ _ hrc⟩⟩
  · rw [receive_attack_miss S b row col hp]
    dsimp only
    refine ⟨⟨?g1m, ?g2m⟩, ?gotherm, ?missm, ?hitm⟩
    · rw [setCell_same]
      decide
    · rw [setCell_same, h]
      decide
    · intro r c hrc
      exact setCell_other _ _ _ _ _ _ hrc
    · intro _
      exact ⟨rfl, rfl⟩
    · intro htrue
      exact absurd htrue (by decide)

theorem claim_attack_frame_witness :
    (receive_attack idHE (mkBoard idHE demoGrid) 0 0).2.guess_board 0 0
      = (if (receive_attack idHE (mkBoard idHE demoGrid) 0 0).1 then 'X' else 'O') :=
  (claim_attack_frame idHE (mkBoard idHE demoGrid) 0 0 rfl).1.1

/-- Claim C9: `receive_attack` itself has no already-attacked guard:
attacking a ship cell marks it `X`, and attacking the very same cell again
(through the board operation directly, bypassing the caller's guess-grid
check) reports a miss and overwrites the mark with `O`. -/
theorem claim_no_repeat_guard (S : HEScheme) (b : Board S.Ct) (row col : Nat)
    (h : b.plain_grid row col = 1) :
    ((receive_attack S b row col).2.guess_board row col = 'X')
      ∧ (receive_attack S ((receive_attack S b row col).2) row col).1 = false
      ∧ (receive_attack S ((receive_attack S b row col).2) row col).2.guess_board row col
          = 'O' := by
  rw [receive_attack_hit S b row col h]
  dsimp only
  have hnot1 : ¬ (setCell b.plain_grid row col 0) row col = 1 := by
    rw [setCell_same]
    decide
  rw [receive_attack_miss S _ row col hnot1]
  dsimp only
  exact ⟨setCell_same _ _ _ _, rfl, setCell_same _ _ _ _⟩

theorem claim_no_repeat_guard_witness :
    (receive_attack idHE ((receive_attack idHE (mkBoard idHE demoGrid) 0 0).2) 0 0).2.guess_board
        0 0 = 'O' :=
  (claim_no_repeat_guard idHE (mkBoard idHE demoGrid) 0 0 (by decide)).2.2

/-- Claim C10: the Health Oracle is read-only — threading the board
through every step of its double loop returns the very same board, and
the integer it returns is the one of the plain summation. -/
theorem claim_health_oracle_readonly (S : HEScheme) (n : Nat) (b : Board S.Ct) :
    (checkHealthS S n b).2 = b
      ∧ (checkHealthS S n b).1 = check_health_homomorphically S n b := by
  rw [checkHealthS_spec]
  exact ⟨rfl, rfl⟩

end Game
